import Mathlib

/-!
Shallow embedding of the manifest munging / demultiplexing engine of
cordova-windows (src/template/cordova/lib/ConfigChanges.js).  The repository
carries two near-duplicate implementations of the engine ("Variant A" and
"Variant B" below); both are embedded.  JavaScript objects with optional
fields are modelled as structures of Option-typed fields (an absent /
undefined field is none); functions that can throw are modelled in
Except Unit.
-/

/-- A single declarative change, as the JS code passes it around.  Every
field is optional because the JS objects are built with different subsets of
keys (demux replacements carry target/parent/after/xmls/versions/deviceTarget;
capability changes carry xml/count/before). -/
structure Change where
  target : Option String := none
  parent : Option String := none
  xml : Option String := none
  xmls : Option String := none
  after : Option String := none
  versions : Option String := none
  deviceTarget : Option String := none
  count : Option Nat := none
  before : Option String := none
deriving DecidableEq

/-- A munge: mapping from parent selector to the list of changes under it.
JS objects preserve insertion order of keys, so an association list. -/
structure Munge where
  parents : List (String × List Change)
deriving DecidableEq

/-! ### Character level helpers (the regexes of the source, made explicit) -/

/-- JS regex word character class, as used by the name-extraction regex. -/
def isWordChar (c : Char) : Bool := c.isAlphanum || c == '_'

/-- JS regex whitespace class (ASCII part, which is all the manifests use). -/
def isSpaceChar (c : Char) : Bool :=
  c == ' ' || c == '\t' || c == '\n' || c == '\r' || c == '\x0b' || c == '\x0c'

/-- Case-insensitive literal match: the pattern (already lower case) is
compared against the lowered input; on success the rest of the input is
returned. -/
def lowerMatch : List Char → List Char → Option (List Char)
  | [], s => some s
  | _ :: _, [] => none
  | p :: ps, c :: cs => if c.toLower == p then lowerMatch ps cs else none

/-- The literal spine of the regex in getCapabilityName. -/
def namePat : List Char := ['n', 'a', 'm', 'e', '=', '"']

/-- One attempt of the regex at a fixed start position: match the case
insensitive literal, then a nonempty greedy run of word characters, then a
closing quote; the captured group is the run. -/
def matchNameAt (l : List Char) : Option String :=
  match lowerMatch namePat l with
  | none => none
  | some rest =>
    let w := rest.takeWhile isWordChar
    if w.isEmpty then none
    else
      match rest.dropWhile isWordChar with
      | c :: _ => if c == '"' then some (String.mk w) else none
      | [] => none

/-- Leftmost-match scan of the regex over the whole string. -/
def matchNameGo : List Char → Option String
  | [] => none
  | c :: cs =>
    match matchNameAt (c :: cs) with
    | some n => some n
    | none => matchNameGo cs

/-- xml.match of the regex Name="(\w+)" with the i flag: first captured
group of the leftmost match, if any. -/
def matchName (s : String) : Option String := matchNameGo s.data

/-- Derived capability name of a change, as an Option: none when the change
has no xml or the regex does not match. -/
def capName (change : Change) : Option String := change.xml.bind matchName

/-- getCapabilityName: capability.xml.match(reg)[1].  Accessing [1] of a
null match (or .match of an undefined xml) throws, hence Except. -/
def getCapabilityNameE (change : Change) : Except Unit String :=
  match capName change with
  | none => Except.error ()
  | some n => Except.ok n

/-- The test of the regex in hasCapabilityChange.  RegExp.test coerces an
undefined argument to the string "undefined", so no exception here. -/
def testCapTag (s : String) : Bool :=
  let rest := s.data.dropWhile isSpaceChar
  lowerTagAt rest
where
  lowerTagAt (rest : List Char) : Bool :=
    capTagLit.isPrefixOf rest &&
      (match rest.drop capTagLit.length with
       | c :: _ => isSpaceChar c
       | [] => false)
  capTagLit : List Char := ['<', 'C', 'a', 'p', 'a', 'b', 'i', 'l', 'i', 't', 'y']

/-- hasCapabilityChange from both variants: whether xml (a missing xml is
coerced to "undefined") matches the leading-whitespace-tolerant capability
element opening tag. -/
def hasCapabilityChange (change : Change) : Bool :=
  testCapTag (change.xml.getD "undefined")

/-- String.prototype.replace with a non-global regex made of a literal:
replace only the first occurrence of the pattern. -/
def replaceFirstL (pat repl : List Char) : List Char → List Char
  | [] => []
  | c :: cs =>
    if pat.isPrefixOf (c :: cs) then repl ++ (c :: cs).drop pat.length
    else c :: replaceFirstL pat repl cs

/-- change.xml.replace(/Capability/, 'uap:Capability') and friends. -/
def replaceFirstStr (pat repl s : String) : String :=
  String.mk (replaceFirstL pat.data repl.data s.data)

/-! ### Monadic list combinators mirroring the JS iteration patterns -/

/-- Array.prototype.some with a possibly-throwing callback. -/
def someE (f : Change → Except Unit Bool) : List Change → Except Unit Bool
  | [] => pure false
  | cap :: caps => do
    let b ← f cap
    if b then pure true else someE f caps

/-- Array.prototype.reduce with a possibly-throwing callback. -/
def reduceE (f : List Change → Change → Except Unit (List Change)) :
    List Change → List Change → Except Unit (List Change)
  | acc, [] => pure acc
  | acc, c :: cs => do
    let acc' ← f acc c
    reduceE f acc' cs

/-- Array.prototype.map with a possibly-throwing callback. -/
def mapME {α β : Type} (f : α → Except Unit β) : List α → Except Unit (List β)
  | [] => pure []
  | x :: xs => do
    let y ← f x
    let ys ← mapME f xs
    pure (y :: ys)

/-- Nested array iteration with push, as in the demux loops. -/
def flatMapL {α β : Type} (f : α → List β) : List α → List β
  | [] => []
  | x :: xs => f x ++ flatMapL f xs

/-! ### Capability dedup / sort / prefix -/

/-- The callback comparing the derived names of two capabilities inside
getUniqueCapabilities (left operand evaluated first, as in JS). -/
def capNamesEqE (cap currCap : Change) : Except Unit Bool := do
  let n1 ← getCapabilityNameE cap
  let n2 ← getCapabilityNameE currCap
  pure (n1 == n2)

/-- One reduce step of getUniqueCapabilities. -/
def uniqueStep (uniqueCaps : List Change) (currCap : Change) :
    Except Unit (List Change) := do
  let isRepeated ← someE (fun cap => capNamesEqE cap currCap) uniqueCaps
  pure (if isRepeated then uniqueCaps else uniqueCaps ++ [currCap])

/-- getUniqueCapabilities: keep the first occurrence of each derived name. -/
def getUniqueCapabilitiesE (capabilities : List Change) :
    Except Unit (List Change) :=
  reduceE uniqueStep [] capabilities

/-- compareCapabilities: ordinal comparison of the derived names. -/
def compareCapabilitiesE (firstCap secondCap : Change) : Except Unit Int := do
  let firstCapName ← getCapabilityNameE firstCap
  let secondCapName ← getCapabilityNameE secondCap
  if firstCapName < secondCapName then pure (-1)
  else if secondCapName < firstCapName then pure 1
  else pure 0

/-- Insert into an already comparator-sorted list (one step of the
comparator-driven sort used to model Array.prototype.sort). -/
def insertSortedE (x : Change) : List Change → Except Unit (List Change)
  | [] => pure [x]
  | y :: ys => do
    let c ← compareCapabilitiesE x y
    if c < 0 then pure (x :: y :: ys)
    else do
      let rest ← insertSortedE x ys
      pure (y :: rest)

/-- Array.prototype.sort(compareCapabilities), modelled as a comparator
driven insertion sort. -/
def sortCapabilitiesE : List Change → Except Unit (List Change)
  | [] => pure []
  | x :: xs => do
    let rest ← sortCapabilitiesE xs
    insertSortedE x rest

/-- Variant A createPrefixedCapabilityChange: a change whose derived name is
not in the must-prefix set is returned unchanged; otherwise a fresh object
with only xml (first occurrence of Capability prefixed), count and before. -/
def createPrefixedCapabilityChangeA (capsNeedUapPrefixSet : List String)
    (change : Change) : Except Unit Change :=
  match change.xml with
  | none => Except.error ()
  | some x =>
    match matchName x with
    | none => Except.error ()
    | some n =>
      if capsNeedUapPrefixSet.contains n then
        pure { xml := some (replaceFirstStr "Capability" "uap:Capability" x),
               count := change.count, before := change.before }
      else pure change

/-- Variant A generateUapCapabilities: filter to capability-element changes,
then map through the membership-filtered prefixer.  The must-prefix set
CapsNeedUapPrefix is imported from AppxManifest.js, which is not part of the
sources here, so it is taken as a parameter. -/
def generateUapCapabilitiesA (capsNeedUapPrefixSet : List String)
    (capabilities : List Change) : Except Unit (List Change) :=
  mapME (createPrefixedCapabilityChangeA capsNeedUapPrefixSet)
    (capabilities.filter hasCapabilityChange)

/-- Variant B createPrefixedCapabilityChange: unconditional prefixing. -/
def createPrefixedCapabilityChangeB (change : Change) : Except Unit Change :=
  match change.xml with
  | none => Except.error ()
  | some x =>
    pure { xml := some (replaceFirstStr "Capability" "uap:Capability" x),
           count := change.count, before := change.before }

/-- The body of the reduce over Object.keys in Variant B: one selector is
mapped to the filtered-and-prefixed list of its changes. -/
def uapEntryB (p : String × List Change) :
    Except Unit (String × List Change) := do
  let l ← mapME createPrefixedCapabilityChangeB (p.2.filter hasCapabilityChange)
  pure (p.1, l)

/-- Variant B generateUapCapabilities: rebuild the whole munge, keeping
every selector key and prefixing every capability-element change under it. -/
def generateUapCapabilitiesB (munge : Munge) : Except Unit Munge := do
  let ps ← mapME uapEntryB munge.parents
  pure { parents := ps }

/-! ### The manifest table and the demultiplexer -/

/-- A value of the MANIFESTS table: either a single manifest file name or a
list of them (the code branches on constructor === Array). -/
inductive ManifestEntry where
  | single : String → ManifestEntry
  | multiple : List String → ManifestEntry
deriving DecidableEq

/-- The static MANIFESTS table; rows keyed by device set, columns listed in
JS object key insertion order. -/
def MANIFESTS : String → List (String × ManifestEntry)
  | "windows" =>
    [("8.1.0", .single "package.windows.appxmanifest"),
     ("10.0.0", .single "package.windows10.appxmanifest")]
  | "phone" =>
    [("8.1.0", .single "package.phone.appxmanifest"),
     ("10.0.0", .single "package.windows10.appxmanifest")]
  | "all" =>
    [("8.1.0", .multiple ["package.windows.appxmanifest",
                          "package.phone.appxmanifest"]),
     ("10.0.0", .single "package.windows10.appxmanifest")]
  | _ => []

/-- createReplacement from the demux loop: a fresh object with exactly the
six listed keys; every key not listed (xml, count, before) is absent. -/
def createReplacement (manifestFile : String) (originalChange : Change) :
    Change :=
  { target := some manifestFile,
    parent := originalChange.parent,
    after := originalChange.after,
    xmls := originalChange.xmls,
    versions := originalChange.versions,
    deviceTarget := originalChange.deviceTarget }

/-- Emission of the replacements for one table entry. -/
def resolveEntry (e : ManifestEntry) (change : Change) : List Change :=
  match e with
  | .multiple ms => ms.map (fun manifestFile => createReplacement manifestFile change)
  | .single m => [createReplacement m change]

/-- Whether a change carries version-specific plugin settings (the guard of
the whole demux pass). -/
def qualifiesForDemux (change : Change) : Bool :=
  change.versions.isSome || change.deviceTarget.isSome

/-- The per-change body of the demux forEach.  The semver satisfaction check
is an external library (spec section 6), taken as a parameter. -/
def demuxChange (satisfies : String → String → Bool) (change : Change) :
    List Change :=
  if change.target ≠ some "package.appxmanifest" then [change]
  else
    let hasVersion := change.versions.isSome
    let hasTargets := change.deviceTarget.isSome
    if ¬(hasVersion || hasTargets) then [change]
    else
      let t0 := if hasTargets then change.deviceTarget.getD "" else "all"
      let targetDeviceSet :=
        if (["windows", "phone", "all"].contains t0) then t0 else "all"
      flatMapL (fun p =>
          if hasVersion && !(satisfies p.1 (change.versions.getD "")) then []
          else resolveEntry p.2 change)
        (MANIFESTS targetDeviceSet)

/-- The demux pass over the whole change list (a no-op when no change
carries versions or deviceTarget). -/
def demuxList (satisfies : String → String → Bool) (changes : List Change) :
    List Change :=
  if changes.any qualifiesForDemux then flatMapL (demuxChange satisfies) changes
  else changes

/-- The argument assembly of the generate_plugin_config_munge override (the
same in both variants): edit_config_changes, when supplied, is pushed onto
changes first; then either the demuxed list alone, or the (already mutated)
list together with the original edit_config_changes argument, is handed to
the base primitive.  Returns the pair (changes argument, edit_config_changes
argument) of that base call. -/
def generatePluginConfigMungeArgs (satisfies : String → String → Bool)
    (changes : List Change) (edit_config_changes : Option (List Change)) :
    List Change × Option (List Change) :=
  let changes := changes ++ (edit_config_changes.getD [])
  if changes.any qualifiesForDemux then
    (flatMapL (demuxChange satisfies) changes, none)
  else (changes, edit_config_changes)

/-- Occurrences of one change across both change-carrying arguments of the
base generate_plugin_config_munge call. -/
def countAcrossArgs (c : Change) (args : List Change × Option (List Change)) :
    Nat :=
  args.1.count c + (args.2.getD []).count c

/-! ### The external semver collaborator -/

/-- Digits of a version component; none when empty or not all digits. -/
def digitsToNat (l : List Char) : Option Nat :=
  if l ≠ [] ∧ l.all Char.isDigit then
    some (l.foldl (fun a c => 10 * a + (c.toNat - 48)) 0)
  else none

/-- Split a character list at dots. -/
def splitDotsAux : List Char → List Char → List (List Char)
  | [], acc => [acc.reverse]
  | '.' :: cs, acc => acc.reverse :: splitDotsAux cs []
  | c :: cs, acc => splitDotsAux cs (c :: acc)

/-- Parse a major.minor.patch version. -/
def parseSemverL (l : List Char) : Option (Nat × Nat × Nat) :=
  match splitDotsAux l [] with
  | [a, b, c] => do
    let x ← digitsToNat a
    let y ← digitsToNat b
    let z ← digitsToNat c
    pure (x, y, z)
  | _ => none

/-- Lexicographic order on version triples. -/
def verLt (a b : Nat × Nat × Nat) : Bool :=
  if a.1 < b.1 then true
  else if b.1 < a.1 then false
  else if a.2.1 < b.2.1 then true
  else if b.2.1 < a.2.1 then false
  else a.2.2 < b.2.2

/-- Modelled from the spec: the external semantic-version range satisfaction
check semver.satisfies(version, range) (spec section 6), an external library
that is not part of this repository's sources.  Plain versions are exact
matches; the comparator and caret/tilde ranges named by the spec are
honoured for normal major.minor.patch versions. -/
def semverSatisfies (version range : String) : Bool :=
  match parseSemverL version.data with
  | none => false
  | some v =>
    let r := range.data
    let cmpWith (rest : List Char) (f : Nat × Nat × Nat → Bool) : Bool :=
      match parseSemverL rest with
      | some rv => f rv
      | none => false
    if ['>', '='].isPrefixOf r then cmpWith (r.drop 2) (fun rv => !verLt v rv)
    else if ['<', '='].isPrefixOf r then cmpWith (r.drop 2) (fun rv => !verLt rv v)
    else if ['>'].isPrefixOf r then cmpWith (r.drop 1) (fun rv => verLt rv v)
    else if ['<'].isPrefixOf r then cmpWith (r.drop 1) (fun rv => verLt v rv)
    else if ['='].isPrefixOf r then cmpWith (r.drop 1) (fun rv => v = rv)
    else if ['^'].isPrefixOf r then
      cmpWith (r.drop 1) (fun rv => v.1 = rv.1 && !verLt v rv)
    else if ['~'].isPrefixOf r then
      cmpWith (r.drop 1) (fun rv => v.1 = rv.1 && v.2.1 = rv.2.1 && !verLt v rv)
    else cmpWith r (fun rv => v = rv)

/-! ### Specification-side and pure-shadow definitions used by the proofs -/

/-- Stated from the spec's words for the dedup contract: keep, in input
order, the first occurrence of each distinct derived capability name,
discarding later changes whose derived name was already seen. -/
def dedupeSpec (seen : List (Option String)) : List Change → List Change
  | [] => []
  | c :: cs =>
    if capName c ∈ seen then dedupeSpec seen cs
    else c :: dedupeSpec (capName c :: seen) cs

/-- The derived name with a default, for pure reasoning under the
"name extraction succeeds" hypotheses. -/
def keyD (c : Change) : String := (capName c).getD ""

/-- Pure shadow of insertSortedE under succeeding name extraction. -/
def insertSorted (x : Change) : List Change → List Change
  | [] => [x]
  | y :: ys => if keyD x < keyD y then x :: y :: ys else y :: insertSorted x ys

/-- Pure shadow of sortCapabilitiesE under succeeding name extraction. -/
def sortCaps : List Change → List Change
  | [] => []
  | x :: xs => insertSorted x (sortCaps xs)

/-- A Name="..." attribute occurrence in a string, stated structurally: a
case-insensitive Name=" literal followed by a nonempty run of word
characters and a closing quote.  This is the spec's "xml contains a
Name=\"...\" attribute". -/
def isNameOcc (l : List Char) (w : List Char) : Prop :=
  ∃ pre nmeq post, l = pre ++ nmeq ++ w ++ '"' :: post ∧
    nmeq.map Char.toLower = namePat ∧ w ≠ [] ∧ w.all isWordChar = true

/-! ### Lemmas: name extraction and deduplication -/

theorem exceptOkBind {α β : Type} (a : α) (f : α → Except Unit β) :
    (Except.ok a >>= f) = f a := rfl

theorem exceptErrBind {α β : Type} (f : α → Except Unit β) :
    ((Except.error () : Except Unit α) >>= f) = Except.error () := rfl

theorem exceptPureOk {α : Type} (a : α) :
    (pure a : Except Unit α) = Except.ok a := rfl

theorem getCapabilityNameE_ok {c : Change} (h : (capName c).isSome = true) :
    getCapabilityNameE c = Except.ok (keyD c) := by
  cases hc : capName c with
  | none => rw [hc] at h; simp at h
  | some n => simp [getCapabilityNameE, keyD, hc]

theorem someE_eval (currCap : Change) (hc : (capName currCap).isSome = true)
    (acc : List Change) (hacc : ∀ a ∈ acc, (capName a).isSome = true) :
    someE (fun cap => capNamesEqE cap currCap) acc =
      Except.ok (acc.any fun a => capName a == capName currCap) := by
  induction acc with
  | nil => rfl
  | cons a as ih =>
    have ha : (capName a).isSome = true := hacc a (by simp)
    have has : ∀ x ∈ as, (capName x).isSome = true :=
      fun x hx => hacc x (by simp [hx])
    obtain ⟨na, hna⟩ := Option.isSome_iff_exists.mp ha
    obtain ⟨nc, hnc⟩ := Option.isSome_iff_exists.mp hc
    rw [someE, capNamesEqE, getCapabilityNameE_ok ha, getCapabilityNameE_ok hc]
    simp only [keyD, hna, hnc, Option.getD_some, List.any_cons]
    by_cases heq : na == nc
    · simp [heq, exceptOkBind, exceptPureOk]
    · have heqf : (na == nc) = false := by simpa using heq
      simp only [heqf, exceptOkBind, exceptPureOk, Bool.false_eq_true, if_false,
        Bool.false_or, show (some na == some nc) = (na == nc) from rfl]
      rw [ih has, hnc]

theorem uniqueStep_eval (acc : List Change) (c : Change)
    (hacc : ∀ a ∈ acc, (capName a).isSome = true)
    (hc : (capName c).isSome = true) :
    uniqueStep acc c =
      Except.ok (if capName c ∈ acc.map capName then acc else acc ++ [c]) := by
  rw [uniqueStep, someE_eval c hc acc hacc]
  by_cases hmem : capName c ∈ acc.map capName
  · have hany : (acc.any fun a => capName a == capName c) = true := by
      rw [List.any_eq_true]
      obtain ⟨a, ha, heq⟩ := List.mem_map.mp hmem
      exact ⟨a, ha, by simp [heq]⟩
    simp [hany, hmem, exceptOkBind, exceptPureOk]
  · have hany : (acc.any fun a => capName a == capName c) = false := by
      rw [List.any_eq_false]
      intro a ha
      simp only [beq_iff_eq]
      intro heq
      exact hmem (List.mem_map.mpr ⟨a, ha, heq⟩)
    simp [hany, hmem, exceptOkBind, exceptPureOk]

theorem reduceE_dedupe (cs : List Change) :
    ∀ (acc : List Change) (seen : List (Option String)),
    (∀ a ∈ acc, (capName a).isSome = true) →
    (∀ c ∈ cs, (capName c).isSome = true) →
    (∀ n, n ∈ seen ↔ n ∈ acc.map capName) →
    reduceE uniqueStep acc cs = Except.ok (acc ++ dedupeSpec seen cs) := by
  induction cs with
  | nil => intro acc seen _ _ _; simp [reduceE, dedupeSpec, exceptPureOk]
  | cons c cs ih =>
    intro acc seen hacc hcs hinv
    have hc : (capName c).isSome = true := hcs c (by simp)
    have hcs' : ∀ x ∈ cs, (capName x).isSome = true :=
      fun x hx => hcs x (by simp [hx])
    rw [reduceE, uniqueStep_eval acc c hacc hc]
    rw [exceptOkBind]
    by_cases hmem : capName c ∈ acc.map capName
    · have hseen : capName c ∈ seen := (hinv _).mpr hmem
      simp only [if_pos hmem]
      show reduceE uniqueStep acc cs = _
      rw [ih acc seen hacc hcs' hinv, dedupeSpec, if_pos hseen]
    · have hseen : capName c ∉ seen := fun h => hmem ((hinv _).mp h)
      simp only [if_neg hmem]
      show reduceE uniqueStep (acc ++ [c]) cs = _
      rw [ih (acc ++ [c]) (capName c :: seen)
        (by intro a ha
            rcases List.mem_append.mp ha with h | h
            · exact hacc a h
            · simp only [List.mem_singleton] at h; subst h; exact hc)
        hcs'
        (by intro n
            simp only [List.mem_cons, List.map_append, List.map_cons,
              List.map_nil, List.mem_append, List.mem_singleton, hinv n]
            tauto)]
      rw [dedupeSpec, if_neg hseen]
      simp [List.append_assoc]

theorem getUniqueCapabilitiesE_eval (cs : List Change)
    (h : ∀ c ∈ cs, (capName c).isSome = true) :
    getUniqueCapabilitiesE cs = Except.ok (dedupeSpec [] cs) := by
  rw [getUniqueCapabilitiesE,
    reduceE_dedupe cs [] [] (by simp) h (by simp)]
  simp

theorem mem_dedupeSpec {c : Change} :
    ∀ (cs : List Change) (seen : List (Option String)),
    c ∈ dedupeSpec seen cs → c ∈ cs := by
  intro cs
  induction cs with
  | nil => intro seen h; simp [dedupeSpec] at h
  | cons a as ih =>
    intro seen h
    rw [dedupeSpec] at h
    by_cases hmem : capName a ∈ seen
    · rw [if_pos hmem] at h
      exact List.mem_cons_of_mem a (ih seen h)
    · rw [if_neg hmem] at h
      rcases List.mem_cons.mp h with h | h
      · simp [h]
      · exact List.mem_cons_of_mem a (ih _ h)

theorem dedupeSpec_names (cs : List Change) :
    ∀ seen : List (Option String),
    (∀ c ∈ dedupeSpec seen cs, capName c ∉ seen) ∧
      List.Pairwise (fun a b => capName a ≠ capName b) (dedupeSpec seen cs) := by
  induction cs with
  | nil => intro seen; simp [dedupeSpec]
  | cons a as ih =>
    intro seen
    rw [dedupeSpec]
    by_cases hmem : capName a ∈ seen
    · rw [if_pos hmem]; exact ih seen
    · rw [if_neg hmem]
      obtain ⟨hnotin, hpw⟩ := ih (capName a :: seen)
      constructor
      · intro c hc
        rcases List.mem_cons.mp hc with h | h
        · subst h; exact hmem
        · intro hs; exact hnotin c h (List.mem_cons_of_mem _ hs)
      · rw [List.pairwise_cons]
        refine ⟨fun b hb => ?_, hpw⟩
        intro heq
        exact hnotin b hb (by rw [← heq]; simp)

theorem dedupeSpec_fixpoint :
    ∀ (us : List Change) (seen : List (Option String)),
    List.Pairwise (fun a b => capName a ≠ capName b) us →
    (∀ c ∈ us, capName c ∉ seen) →
    dedupeSpec seen us = us := by
  intro us
  induction us with
  | nil => intro seen _ _; rfl
  | cons a as ih =>
    intro seen hpw hns
    rw [dedupeSpec, if_neg (hns a (by simp))]
    rw [List.pairwise_cons] at hpw
    rw [ih (capName a :: seen) hpw.2]
    intro c hc
    rw [List.mem_cons]
    rintro (h | h)
    · exact hpw.1 c hc h.symm
    · exact hns c (List.mem_cons_of_mem _ hc) h

/-! ### Lemmas: comparator sort -/

theorem compareCapabilitiesE_eval {x y : Change}
    (hx : (capName x).isSome = true) (hy : (capName y).isSome = true) :
    compareCapabilitiesE x y =
      Except.ok (if keyD x < keyD y then (-1 : Int)
                 else if keyD y < keyD x then 1 else 0) := by
  rw [compareCapabilitiesE, getCapabilityNameE_ok hx, exceptOkBind,
    getCapabilityNameE_ok hy, exceptOkBind]
  by_cases hlt : keyD x < keyD y
  · simp [hlt, exceptPureOk]
  · by_cases hgt : keyD y < keyD x
    · simp [hlt, hgt, exceptPureOk]
    · simp [hlt, hgt, exceptPureOk]

theorem insertSortedE_eval (x : Change) (hx : (capName x).isSome = true) :
    ∀ l : List Change, (∀ c ∈ l, (capName c).isSome = true) →
    insertSortedE x l = Except.ok (insertSorted x l) := by
  intro l
  induction l with
  | nil => intro _; rfl
  | cons y ys ih =>
    intro h
    have hy : (capName y).isSome = true := h y (by simp)
    have hys : ∀ c ∈ ys, (capName c).isSome = true :=
      fun c hc => h c (by simp [hc])
    rw [insertSortedE, compareCapabilitiesE_eval hx hy, exceptOkBind]
    by_cases hlt : keyD x < keyD y
    · simp [insertSorted, hlt, exceptPureOk]
    · by_cases hgt : keyD y < keyD x
      · simp only [if_neg hlt, if_pos hgt]
        rw [if_neg (by norm_num), ih hys, exceptOkBind]
        simp [insertSorted, hlt, exceptPureOk]
      · simp only [if_neg hlt, if_neg hgt]
        rw [if_neg (by norm_num), ih hys, exceptOkBind]
        simp [insertSorted, hlt, exceptPureOk]

theorem insertSorted_perm (x : Change) :
    ∀ l : List Change, (insertSorted x l).Perm (x :: l) := by
  intro l
  induction l with
  | nil => simp [insertSorted]
  | cons y ys ih =>
    rw [insertSorted]
    by_cases hlt : keyD x < keyD y
    · simp [hlt]
    · rw [if_neg hlt]
      exact (ih.cons y).trans (List.Perm.swap x y ys)

theorem sortCaps_perm : ∀ l : List Change, (sortCaps l).Perm l := by
  intro l
  induction l with
  | nil => simp [sortCaps]
  | cons x xs ih =>
    rw [sortCaps]
    exact (insertSorted_perm x (sortCaps xs)).trans (ih.cons x)

theorem sortCapabilitiesE_eval :
    ∀ l : List Change, (∀ c ∈ l, (capName c).isSome = true) →
    sortCapabilitiesE l = Except.ok (sortCaps l) := by
  intro l
  induction l with
  | nil => intro _; rfl
  | cons x xs ih =>
    intro h
    have hx : (capName x).isSome = true := h x (by simp)
    have hxs : ∀ c ∈ xs, (capName c).isSome = true :=
      fun c hc => h c (by simp [hc])
    rw [sortCapabilitiesE, ih hxs, exceptOkBind, sortCaps]
    exact insertSortedE_eval x hx (sortCaps xs)
      (fun c hc => hxs c ((sortCaps_perm xs).mem_iff.mp hc))

theorem insertSorted_pairwise (x : Change) :
    ∀ l : List Change,
    List.Pairwise (fun a b => ¬ keyD b < keyD a) l →
    List.Pairwise (fun a b => ¬ keyD b < keyD a) (insertSorted x l) := by
  intro l
  induction l with
  | nil => intro _; simp [insertSorted]
  | cons y ys ih =>
    intro hpw
    rw [List.pairwise_cons] at hpw
    obtain ⟨hy, hys⟩ := hpw
    rw [insertSorted]
    by_cases hlt : keyD x < keyD y
    · rw [if_pos hlt, List.pairwise_cons]
      refine ⟨?_, List.pairwise_cons.mpr ⟨hy, hys⟩⟩
      intro b hb
      rcases List.mem_cons.mp hb with h | h
      · subst h; exact lt_asymm hlt
      · intro hbx
        exact hy b h (lt_trans hbx hlt)
    · rw [if_neg hlt, List.pairwise_cons]
      refine ⟨?_, ih hys⟩
      intro b hb
      have hb' : b = x ∨ b ∈ ys := by
        have := (insertSorted_perm x ys).mem_iff.mp hb
        simpa using this
      rcases hb' with h | h
      · subst h; exact hlt
      · exact hy b h

theorem sortCaps_pairwise :
    ∀ l : List Change,
    List.Pairwise (fun a b => ¬ keyD b < keyD a) (sortCaps l) := by
  intro l
  induction l with
  | nil => simp [sortCaps]
  | cons x xs ih =>
    rw [sortCaps]
    exact insertSorted_pairwise x (sortCaps xs) ih

theorem perm_strict_sorted_eq :
    ∀ l1 l2 : List Change, l1.Perm l2 →
    List.Pairwise (fun a b => keyD a < keyD b) l1 →
    List.Pairwise (fun a b => keyD a < keyD b) l2 → l1 = l2 := by
  intro l1
  induction l1 with
  | nil =>
    intro l2 hp _ _
    exact (hp.symm.eq_nil).symm ▸ rfl
  | cons a t1 ih =>
    intro l2 hp h1 h2
    cases l2 with
    | nil => exact absurd hp.eq_nil (by simp)
    | cons b t2 =>
      rw [List.pairwise_cons] at h1 h2
      have hab : a = b := by
        by_contra hne
        have haIn : a ∈ b :: t2 := hp.mem_iff.mp (by simp)
        have hbIn : b ∈ a :: t1 := hp.mem_iff.mpr (by simp)
        have h1' : keyD a < keyD b := by
          rcases List.mem_cons.mp hbIn with h | h
          · exact absurd h.symm hne
          · exact h1.1 b h
        have h2' : keyD b < keyD a := by
          rcases List.mem_cons.mp haIn with h | h
          · exact absurd h hne
          · exact h2.1 a h
        exact lt_asymm h1' h2'
      subst hab
      rw [ih t2 hp.cons_inv h1.2 h2.2]

theorem pairwise_keyD_ne (cs : List Change)
    (hs : ∀ c ∈ cs, (capName c).isSome = true)
    (h : List.Pairwise (fun a b => capName a ≠ capName b) cs) :
    List.Pairwise (fun a b => keyD a ≠ keyD b) cs := by
  refine List.Pairwise.imp_of_mem ?_ h
  intro a b ha hb hne heq
  obtain ⟨na, hna⟩ := Option.isSome_iff_exists.mp (hs a ha)
  obtain ⟨nb, hnb⟩ := Option.isSome_iff_exists.mp (hs b hb)
  apply hne
  rw [keyD, keyD, hna, hnb] at heq
  rw [hna, hnb]
  simpa using heq

theorem pairwise_strict_of (l : List Change)
    (h1 : List.Pairwise (fun a b => ¬ keyD b < keyD a) l)
    (h2 : List.Pairwise (fun a b => keyD a ≠ keyD b) l) :
    List.Pairwise (fun a b => keyD a < keyD b) l :=
  (h1.and h2).imp (fun h => lt_of_le_of_ne (not_lt.mp h.1) h.2)

theorem sortCaps_deterministic (cs p : List Change)
    (hperm : p.Perm cs)
    (hsome : ∀ c ∈ cs, (capName c).isSome = true)
    (hdist : List.Pairwise (fun a b => capName a ≠ capName b) cs) :
    sortCaps p = sortCaps cs := by
  have hsome_p : ∀ c ∈ p, (capName c).isSome = true :=
    fun c hc => hsome c (hperm.mem_iff.mp hc)
  have hdist_keyD : List.Pairwise (fun a b => keyD a ≠ keyD b) cs :=
    pairwise_keyD_ne cs hsome hdist
  have hsymm : ∀ {x y : Change}, keyD x ≠ keyD y → keyD y ≠ keyD x :=
    fun h => h.symm
  have hdist_p : List.Pairwise (fun a b => keyD a ≠ keyD b) p :=
    (hperm.pairwise_iff hsymm).mpr hdist_keyD
  have hdist_sp : List.Pairwise (fun a b => keyD a ≠ keyD b) (sortCaps p) :=
    ((sortCaps_perm p).pairwise_iff hsymm).mpr hdist_p
  have hdist_sc : List.Pairwise (fun a b => keyD a ≠ keyD b) (sortCaps cs) :=
    ((sortCaps_perm cs).pairwise_iff hsymm).mpr hdist_keyD
  exact perm_strict_sorted_eq (sortCaps p) (sortCaps cs)
    (((sortCaps_perm p).trans hperm).trans (sortCaps_perm cs).symm)
    (pairwise_strict_of _ (sortCaps_pairwise p) hdist_sp)
    (pairwise_strict_of _ (sortCaps_pairwise cs) hdist_sc)

/-! ### Lemmas: correctness of the Name attribute matcher -/

theorem lowerMatch_sound :
    ∀ (pat s rest : List Char), lowerMatch pat s = some rest →
    ∃ pre, s = pre ++ rest ∧ pre.map Char.toLower = pat := by
  intro pat
  induction pat with
  | nil =>
    intro s rest h
    rw [lowerMatch] at h
    exact ⟨[], by simp_all, rfl⟩
  | cons p ps ih =>
    intro s rest h
    cases s with
    | nil => exact absurd h (by rw [lowerMatch]; simp)
    | cons c cs =>
      rw [lowerMatch] at h
      by_cases hc : c.toLower == p
      · rw [if_pos hc] at h
        obtain ⟨pre, hcs, hmap⟩ := ih cs rest h
        exact ⟨c :: pre, by simp [hcs], by simp [hmap, show c.toLower = p by simpa using hc]⟩
      · rw [if_neg hc] at h
        exact absurd h (by simp)

theorem lowerMatch_complete :
    ∀ (pre tail : List Char),
    lowerMatch (pre.map Char.toLower) (pre ++ tail) = some tail := by
  intro pre
  induction pre with
  | nil => intro tail; rfl
  | cons c cs ih =>
    intro tail
    rw [List.map_cons, List.cons_append, lowerMatch, if_pos (by simp)]
    exact ih tail

theorem all_takeWhile_self {α : Type} (p : α → Bool) :
    ∀ l : List α, (l.takeWhile p).all p = true := by
  intro l
  induction l with
  | nil => rfl
  | cons c cs ih =>
    rw [List.takeWhile]
    cases hp : p c
    · rfl
    · simp [hp, ih]

theorem takeWhile_word_run (post : List Char) :
    ∀ w : List Char, w.all isWordChar = true →
    (w ++ '"' :: post).takeWhile isWordChar = w ∧
      (w ++ '"' :: post).dropWhile isWordChar = '"' :: post := by
  intro w
  induction w with
  | nil =>
    intro _
    constructor
    · rw [List.nil_append, List.takeWhile]
      simp [isWordChar]
    · rw [List.nil_append, List.dropWhile]
      simp [isWordChar]
  | cons a as ih =>
    intro hall
    rw [List.all_cons, Bool.and_eq_true] at hall
    obtain ⟨ha, has⟩ := hall
    obtain ⟨ht, hd⟩ := ih has
    constructor
    · rw [List.cons_append, List.takeWhile, ha, ht]
    · rw [List.cons_append, List.dropWhile, ha, hd]

theorem isNameOcc_cons {l w : List Char} (c : Char) (h : isNameOcc l w) :
    isNameOcc (c :: l) w := by
  obtain ⟨pre, nmeq, post, hl, hmap, hne, hall⟩ := h
  exact ⟨c :: pre, nmeq, post, by simp [hl], hmap, hne, hall⟩

theorem matchNameAt_sound {l : List Char} {n : String}
    (h : matchNameAt l = some n) : isNameOcc l n.data := by
  rw [matchNameAt] at h
  cases hlm : lowerMatch namePat l with
  | none => rw [hlm] at h; exact absurd h (by simp)
  | some rest =>
    rw [hlm] at h
    simp only [] at h
    by_cases hemp : (rest.takeWhile isWordChar).isEmpty
    · rw [if_pos hemp] at h; exact absurd h (by simp)
    · rw [if_neg hemp] at h
      cases hdw : rest.dropWhile isWordChar with
      | nil => rw [hdw] at h; exact absurd h (by simp)
      | cons c tl =>
        rw [hdw] at h
        have h' : (if (c == '"') = true
            then some (String.mk (rest.takeWhile isWordChar)) else none) =
            some n := h
        by_cases hc : c == '"'
        · rw [if_pos hc] at h'
          obtain ⟨nmeq, hrest, hmap⟩ := lowerMatch_sound namePat l rest hlm
          have hsplit : rest = rest.takeWhile isWordChar ++ ('"' :: tl) := by
            conv_lhs => rw [← List.takeWhile_append_dropWhile (p := isWordChar) (l := rest)]
            rw [hdw, show c = '"' by simpa using hc]
          have hn : n.data = rest.takeWhile isWordChar := by
            have : n = String.mk (rest.takeWhile isWordChar) := by
              simpa using h'.symm
            simp [this]
          refine ⟨[], nmeq, tl, ?_, hmap, ?_, ?_⟩
          · rw [List.nil_append, hrest, hsplit, hn]
            simp
          · intro hnil
            rw [hn] at hnil
            rw [hnil] at hemp
            simp [List.isEmpty] at hemp
          · rw [hn]; exact all_takeWhile_self isWordChar rest
        · rw [if_neg hc] at h'; exact absurd h' (by simp)

theorem matchNameGo_sound :
    ∀ (l : List Char) (n : String), matchNameGo l = some n → isNameOcc l n.data := by
  intro l
  induction l with
  | nil => intro n h; exact absurd h (by rw [matchNameGo]; simp)
  | cons c cs ih =>
    intro n h
    rw [matchNameGo] at h
    cases hat : matchNameAt (c :: cs) with
    | some m =>
      rw [hat] at h
      have : m = n := by simpa using h
      subst this
      exact matchNameAt_sound hat
    | none =>
      rw [hat] at h
      exact isNameOcc_cons c (ih n h)

theorem matchNameAt_complete (nmeq w post : List Char)
    (hmap : nmeq.map Char.toLower = namePat) (hne : w ≠ [])
    (hall : w.all isWordChar = true) :
    matchNameAt (nmeq ++ w ++ '"' :: post) = some (String.mk w) := by
  have hlm : lowerMatch namePat (nmeq ++ (w ++ '"' :: post)) = some (w ++ '"' :: post) := by
    rw [← hmap]
    exact lowerMatch_complete nmeq (w ++ '"' :: post)
  obtain ⟨ht, hd⟩ := takeWhile_word_run post w hall
  rw [matchNameAt, List.append_assoc, hlm]
  simp only [ht, hd]
  rw [if_neg (by simpa [List.isEmpty_iff] using hne), if_pos (by simp)]

theorem matchNameGo_complete :
    ∀ (pre l nmeq w post : List Char),
    l = pre ++ nmeq ++ w ++ '"' :: post →
    nmeq.map Char.toLower = namePat → w ≠ [] → w.all isWordChar = true →
    (matchNameGo l).isSome = true := by
  intro pre
  induction pre with
  | nil =>
    intro l nmeq w post hl hmap hne hall
    subst hl
    cases nmeq with
    | nil => simp [namePat] at hmap
    | cons a rest =>
      have hthis := matchNameAt_complete (a :: rest) w post hmap hne hall
      simp only [List.nil_append, List.cons_append] at hthis ⊢
      rw [matchNameGo, hthis]
      rfl
  | cons c pre' ih =>
    intro l nmeq w post hl hmap hne hall
    subst hl
    have ihh := ih (pre' ++ nmeq ++ w ++ '"' :: post) nmeq w post rfl hmap hne hall
    simp only [List.cons_append]
    rw [matchNameGo]
    cases hat : matchNameAt (c :: (pre' ++ nmeq ++ w ++ '"' :: post)) with
    | some m => rfl
    | none => exact ihh

theorem matchName_iff_isNameOcc (x : String) :
    (∃ n, matchName x = some n ∧ isNameOcc x.data n.data) ↔
      (∃ w, isNameOcc x.data w) := by
  constructor
  · rintro ⟨n, _, hocc⟩
    exact ⟨n.data, hocc⟩
  · rintro ⟨w, pre, nmeq, post, hl, hmap, hne, hall⟩
    have hsome : (matchNameGo x.data).isSome = true :=
      matchNameGo_complete pre x.data nmeq w post hl hmap hne hall
    obtain ⟨n, hn⟩ := Option.isSome_iff_exists.mp hsome
    exact ⟨n, hn, matchNameGo_sound x.data n hn⟩

/-! ### Lemmas: mapME, flatMapL, error propagation -/

theorem mapME_ok_forall₂ {α β : Type} (f : α → Except Unit β) :
    ∀ (xs : List α) (ys : List β), mapME f xs = Except.ok ys →
    List.Forall₂ (fun x y => f x = Except.ok y) xs ys := by
  intro xs
  induction xs with
  | nil =>
    intro ys h
    rw [mapME, exceptPureOk] at h
    cases h
    exact List.Forall₂.nil
  | cons x xs ih =>
    intro ys h
    rw [mapME] at h
    cases hfx : f x with
    | error e =>
      cases e; rw [hfx, exceptErrBind] at h
      exact Except.noConfusion h
    | ok y =>
      rw [hfx, exceptOkBind] at h
      cases hrest : mapME f xs with
      | error e =>
        cases e; rw [hrest, exceptErrBind] at h
        exact Except.noConfusion h
      | ok ys' =>
        rw [hrest, exceptOkBind, exceptPureOk] at h
        cases h
        exact List.Forall₂.cons hfx (ih ys' hrest)

theorem forall₂_mem_right {α β : Type} {R : α → β → Prop} :
    ∀ {xs : List α} {ys : List β}, List.Forall₂ R xs ys →
    ∀ y ∈ ys, ∃ x ∈ xs, R x y := by
  intro xs ys h
  induction h with
  | nil => intro y hy; simp at hy
  | cons hR htail ih =>
    intro y hy
    rcases List.mem_cons.mp hy with h | h
    · subst h; exact ⟨_, by simp, hR⟩
    · obtain ⟨x, hx, hr⟩ := ih y h
      exact ⟨x, by simp [hx], hr⟩

theorem forall₂_mem_of_fixed {α : Type} {f : α → Except Unit α} :
    ∀ {xs ys : List α}, List.Forall₂ (fun x y => f x = Except.ok y) xs ys →
    ∀ x ∈ xs, f x = Except.ok x → x ∈ ys := by
  intro xs ys h
  induction h with
  | nil => intro x hx; simp at hx
  | cons hR htail ih =>
    intro x hx hfx
    rcases List.mem_cons.mp hx with h | h
    · subst h
      rw [hfx] at hR
      have : _ = x := (Except.ok.inj hR).symm
      simp [← this]
    · exact List.mem_cons_of_mem _ (ih x h hfx)

theorem mem_flatMapL {α β : Type} (f : α → List β) :
    ∀ (l : List α) (y : β), y ∈ flatMapL f l ↔ ∃ x ∈ l, y ∈ f x := by
  intro l
  induction l with
  | nil => intro y; simp [flatMapL]
  | cons x xs ih =>
    intro y
    rw [flatMapL, List.mem_append, ih y]
    constructor
    · rintro (h | ⟨x', hx', hy⟩)
      · exact ⟨x, by simp, h⟩
      · exact ⟨x', by simp [hx'], hy⟩
    · rintro ⟨x', hx', hy⟩
      rcases List.mem_cons.mp hx' with h | h
      · subst h; exact Or.inl hy
      · exact Or.inr ⟨x', h, hy⟩

theorem capNamesEqE_error_right (a b : Change)
    (hb : getCapabilityNameE b = Except.error ()) :
    capNamesEqE a b = Except.error () := by
  rw [capNamesEqE]
  cases hga : getCapabilityNameE a with
  | error e => cases e; rw [exceptErrBind]
  | ok na => rw [exceptOkBind, hb, exceptErrBind]

theorem dedupe_error_prop (a b : Change) (rest : List Change)
    (hb : getCapabilityNameE b = Except.error ()) :
    getUniqueCapabilitiesE (a :: b :: rest) = Except.error () := by
  have hsome : someE (fun cap => capNamesEqE cap b) [a] = Except.error () := by
    rw [someE, capNamesEqE_error_right a b hb, exceptErrBind]
  have h2 : uniqueStep [a] b = Except.error () := by
    rw [uniqueStep, hsome, exceptErrBind]
  rw [getUniqueCapabilitiesE, reduceE,
    show uniqueStep [] a = Except.ok [a] from rfl, exceptOkBind, reduceE, h2,
    exceptErrBind]

/-! ### Lemmas: Variant B munge reconstruction -/

theorem uapEntryB_ok {p q : String × List Change}
    (h : uapEntryB p = Except.ok q) :
    q.1 = p.1 ∧ ∀ c' ∈ q.2, ∃ c ∈ p.2, hasCapabilityChange c = true ∧
      ∃ x, c.xml = some x ∧
        c'.xml = some (replaceFirstStr "Capability" "uap:Capability" x) := by
  rw [uapEntryB] at h
  cases hl : mapME createPrefixedCapabilityChangeB
      (p.2.filter hasCapabilityChange) with
  | error e =>
    cases e; rw [hl, exceptErrBind] at h
    exact Except.noConfusion h
  | ok l =>
    rw [hl, exceptOkBind, exceptPureOk] at h
    cases h
    refine ⟨rfl, ?_⟩
    intro c' hc'
    obtain ⟨c, hcmem, hcc⟩ :=
      forall₂_mem_right (mapME_ok_forall₂ _ _ _ hl) c' hc'
    have hcf := List.mem_filter.mp hcmem
    refine ⟨c, hcf.1, hcf.2, ?_⟩
    cases hx : c.xml with
    | none =>
      rw [createPrefixedCapabilityChangeB, hx] at hcc
      exact Except.noConfusion hcc
    | some x =>
      rw [createPrefixedCapabilityChangeB, hx] at hcc
      refine ⟨x, rfl, ?_⟩
      have h' : Except.ok
          ({ xml := some (replaceFirstStr "Capability" "uap:Capability" x),
             count := c.count, before := c.before } : Change) =
          Except.ok c' := hcc
      rw [← Except.ok.inj h']

theorem genB_forall₂ {m m' : Munge}
    (h : generateUapCapabilitiesB m = Except.ok m') :
    List.Forall₂ (fun p q => uapEntryB p = Except.ok q)
      m.parents m'.parents := by
  rw [generateUapCapabilitiesB] at h
  cases hps : mapME uapEntryB m.parents with
  | error e =>
    cases e; rw [hps, exceptErrBind] at h
    exact Except.noConfusion h
  | ok ps =>
    rw [hps, exceptOkBind, exceptPureOk] at h
    cases h
    exact mapME_ok_forall₂ _ _ _ hps

theorem forall₂_keys {ps qs : List (String × List Change)}
    (h : List.Forall₂ (fun p q => uapEntryB p = Except.ok q) ps qs) :
    qs.map Prod.fst = ps.map Prod.fst := by
  induction h with
  | nil => rfl
  | cons hR htail ih =>
    simp only [List.map_cons, ih]
    rw [(uapEntryB_ok hR).1]

/-! ### Lemmas: the demultiplexer -/

theorem demuxChange_mem (s : String → String → Bool) (c r : Change)
    (htarget : c.target = some "package.appxmanifest")
    (hqual : (c.versions.isSome || c.deviceTarget.isSome) = true)
    (hr : r ∈ demuxChange s c) : ∃ m, r = createReplacement m c := by
  rw [demuxChange, if_neg (by simp [htarget]), if_neg (by simp [hqual])] at hr
  rw [mem_flatMapL] at hr
  obtain ⟨p, _, hrp⟩ := hr
  by_cases hcond :
      (c.versions.isSome && !(s p.1 (c.versions.getD ""))) = true
  · rw [if_pos hcond] at hrp
    simp at hrp
  · rw [if_neg hcond] at hrp
    cases hp2 : p.2 with
    | single m =>
      rw [hp2, resolveEntry] at hrp
      exact ⟨m, by simpa using hrp⟩
    | multiple ms =>
      rw [hp2, resolveEntry] at hrp
      obtain ⟨m, _, hm⟩ := List.mem_map.mp hrp
      exact ⟨m, hm.symm⟩

theorem demuxChange_unresolvable (s : String → String → Bool) (c : Change)
    (d : String) (hd : c.deviceTarget = some d)
    (hcontains : (["windows", "phone", "all"].contains d) = false) :
    demuxChange s c =
      (demuxChange s { c with deviceTarget := some "all" }).map
        (fun r => { r with deviceTarget := some d }) := by
  obtain ⟨t, pa, x, xs, af, v, dt, ct, bf⟩ := c
  simp only [] at hd
  subst hd
  by_cases ht : t = some "package.appxmanifest"
  · subst ht
    have hd' : ¬(d = "windows" ∨ d = "phone" ∨ d = "all") := by
      simpa using hcontains
    by_cases hv : v.isSome = true <;>
      by_cases s81 : s "8.1.0" (v.getD "") = false <;>
      by_cases s10 : s "10.0.0" (v.getD "") = false <;>
      simp [demuxChange, MANIFESTS, hd', hv, s81, s10, flatMapL, resolveEntry,
        createReplacement]
  · rw [demuxChange, if_pos (by simpa using ht), demuxChange,
      if_pos (by simpa using ht)]
    simp

theorem forall₂_mem_left {α β : Type} {R : α → β → Prop} :
    ∀ {xs : List α} {ys : List β}, List.Forall₂ R xs ys →
    ∀ x ∈ xs, ∃ y ∈ ys, R x y := by
  intro xs ys h
  induction h with
  | nil => intro x hx; simp at hx
  | cons hR htail ih =>
    intro x hx
    rcases List.mem_cons.mp hx with h | h
    · subst h; exact ⟨_, by simp, hR⟩
    · obtain ⟨y, hy, hr⟩ := ih x h
      exact ⟨y, by simp [hy], hr⟩

/-! ### The claims -/

/-- Claim C1: for an input Change with target package.appxmanifest,
deviceTarget "all" and versions "10.0.0", the demux step produces exactly
one Change targeting package.windows10.appxmanifest and none targeting the
two legacy 8.1.0 manifests. -/
theorem C1_demux_coverage :
    (demuxList semverSatisfies
      [{ target := some "package.appxmanifest", deviceTarget := some "all",
         versions := some "10.0.0" }]).length = 1 ∧
    ((demuxList semverSatisfies
      [{ target := some "package.appxmanifest", deviceTarget := some "all",
         versions := some "10.0.0" }]).filter
        (fun c => c.target == some "package.windows10.appxmanifest")).length = 1 ∧
    ((demuxList semverSatisfies
      [{ target := some "package.appxmanifest", deviceTarget := some "all",
         versions := some "10.0.0" }]).filter
        (fun c => c.target == some "package.windows.appxmanifest")).length = 0 ∧
    ((demuxList semverSatisfies
      [{ target := some "package.appxmanifest", deviceTarget := some "all",
         versions := some "10.0.0" }]).filter
        (fun c => c.target == some "package.phone.appxmanifest")).length = 0 := by
  decide

/-- Claim C2 counterexample: a demuxed Change carrying an xml field (as in
the spec's own concrete scenario) loses it — the emitted replacement has no
xml, so not every other field is copied through unchanged. -/
theorem C2_xml_not_copied_cex :
    (demuxChange semverSatisfies
      { target := some "package.appxmanifest",
        parent := some "/Package/Capabilities",
        xml := some "<Capability Name=\"internetClient\" />",
        versions := some "10.0.0" }).map Change.xml = [none] ∧
    ({ target := some "package.appxmanifest",
       parent := some "/Package/Capabilities",
       xml := some "<Capability Name=\"internetClient\" />",
       versions := some "10.0.0" } : Change).xml ≠ none := by
  decide

/-- Claim C2 (amended): every emitted replacement rewrites target to a
resolved manifest id and copies parent, after, xmls, versions and
deviceTarget through unchanged; the xml, count and before fields are not
copied — replacements always carry none for them. -/
theorem C2_replacement_fields (s : String → String → Bool) (c r : Change)
    (htarget : c.target = some "package.appxmanifest")
    (hqual : (c.versions.isSome || c.deviceTarget.isSome) = true)
    (hr : r ∈ demuxChange s c) :
    (∃ m, r.target = some m) ∧ r.parent = c.parent ∧ r.after = c.after ∧
    r.xmls = c.xmls ∧ r.versions = c.versions ∧
    r.deviceTarget = c.deviceTarget ∧ r.xml = none ∧ r.count = none ∧
    r.before = none := by
  obtain ⟨m, rfl⟩ := demuxChange_mem s c r htarget hqual hr
  exact ⟨⟨m, rfl⟩, rfl, rfl, rfl, rfl, rfl, rfl, rfl, rfl⟩

theorem C2_replacement_fields_witness :
    (∃ m, (createReplacement "package.windows10.appxmanifest"
      { target := some "package.appxmanifest",
        versions := some "10.0.0" }).target = some m) ∧
    (createReplacement "package.windows10.appxmanifest"
      ({ target := some "package.appxmanifest",
         versions := some "10.0.0" } : Change)).parent =
      ({ target := some "package.appxmanifest",
         versions := some "10.0.0" } : Change).parent ∧
    (createReplacement "package.windows10.appxmanifest"
      ({ target := some "package.appxmanifest",
         versions := some "10.0.0" } : Change)).after =
      ({ target := some "package.appxmanifest",
         versions := some "10.0.0" } : Change).after ∧
    (createReplacement "package.windows10.appxmanifest"
      ({ target := some "package.appxmanifest",
         versions := some "10.0.0" } : Change)).xmls =
      ({ target := some "package.appxmanifest",
         versions := some "10.0.0" } : Change).xmls ∧
    (createReplacement "package.windows10.appxmanifest"
      ({ target := some "package.appxmanifest",
         versions := some "10.0.0" } : Change)).versions =
      ({ target := some "package.appxmanifest",
         versions := some "10.0.0" } : Change).versions ∧
    (createReplacement "package.windows10.appxmanifest"
      ({ target := some "package.appxmanifest",
         versions := some "10.0.0" } : Change)).deviceTarget =
      ({ target := some "package.appxmanifest",
         versions := some "10.0.0" } : Change).deviceTarget ∧
    (createReplacement "package.windows10.appxmanifest"
      ({ target := some "package.appxmanifest",
         versions := some "10.0.0" } : Change)).xml = none ∧
    (createReplacement "package.windows10.appxmanifest"
      ({ target := some "package.appxmanifest",
         versions := some "10.0.0" } : Change)).count = none ∧
    (createReplacement "package.windows10.appxmanifest"
      ({ target := some "package.appxmanifest",
         versions := some "10.0.0" } : Change)).before = none :=
  C2_replacement_fields semverSatisfies
    { target := some "package.appxmanifest", versions := some "10.0.0" }
    (createReplacement "package.windows10.appxmanifest"
      { target := some "package.appxmanifest", versions := some "10.0.0" })
    rfl (by decide) (by decide)

/-- Claim C3 counterexample: a capability Change whose derived name
internetClient is not in the must-prefix set is NOT excluded from Variant
A's flat output — it is returned in the output, unchanged. -/
theorem C3_nonmember_included_cex :
    hasCapabilityChange
      { xml := some "<Capability Name=\"internetClient\" />" } = true ∧
    getCapabilityNameE
      { xml := some "<Capability Name=\"internetClient\" />" } =
      Except.ok "internetClient" ∧
    (["documentsLibrary"].contains "internetClient") = false ∧
    generateUapCapabilitiesA ["documentsLibrary"]
      [{ xml := some "<Capability Name=\"internetClient\" />" }] =
      Except.ok [{ xml := some "<Capability Name=\"internetClient\" />" }] :=
  ⟨rfl, rfl, rfl, rfl⟩

/-- Claim C3 (amended): a capability-element Change whose derived name is
not a member of the must-prefix set is passed through unchanged by Variant
A's generateUapCapabilities — included in the flat output, not excluded. -/
theorem C3_nonmember_passthrough (capsSet : List String)
    (cs us : List Change)
    (hgen : generateUapCapabilitiesA capsSet cs = Except.ok us)
    (c : Change) (hc : c ∈ cs) (hcap : hasCapabilityChange c = true)
    (hnm : ∀ n, capName c = some n → capsSet.contains n = false) :
    c ∈ us := by
  have hcf : c ∈ cs.filter hasCapabilityChange :=
    List.mem_filter.mpr ⟨hc, hcap⟩
  rw [generateUapCapabilitiesA] at hgen
  have hfa := mapME_ok_forall₂ _ _ _ hgen
  refine forall₂_mem_of_fixed hfa c hcf ?_
  cases hx : c.xml with
  | none =>
    rw [hasCapabilityChange, hx] at hcap
    exact absurd hcap (by decide)
  | some x =>
    cases hmn : matchName x with
    | none =>
      obtain ⟨y, _, hcy⟩ := forall₂_mem_left hfa c hcf
      rw [createPrefixedCapabilityChangeA, hx] at hcy
      simp only [hmn] at hcy
      exact Except.noConfusion hcy
    | some n =>
      have hn : capName c = some n := by
        rw [capName, hx]
        exact hmn
      have hcont := hnm n hn
      have hnotmem : n ∉ capsSet := by simpa using hcont
      rw [createPrefixedCapabilityChangeA, hx]
      simp [hmn, hnotmem, exceptPureOk]

theorem C3_nonmember_passthrough_witness :
    ({ xml := some "<Capability Name=\"internetClient\" />" } : Change) ∈
      [({ xml := some "<Capability Name=\"internetClient\" />" } : Change)] := by
  refine C3_nonmember_passthrough ["documentsLibrary"]
    [{ xml := some "<Capability Name=\"internetClient\" />" }]
    [{ xml := some "<Capability Name=\"internetClient\" />" }]
    rfl _ (by decide) (by decide) ?_
  intro n h
  have hc : capName ({ xml := some "<Capability Name=\"internetClient\" />" } :
      Change) = some "internetClient" := by decide
  rw [hc] at h
  have hn : n = "internetClient" := (Option.some.inj h).symm
  subst hn
  decide

/-- Claim C4: on a list of changes whose xml each yields a derived
capability name, getUniqueCapabilities keeps, in input order, exactly the
first occurrence of each distinct derived name and discards every later
change with an already-seen name (dedupeSpec states that description
directly). -/
theorem C4_dedupe_first_occurrence (cs : List Change)
    (h : ∀ c ∈ cs, (capName c).isSome = true) :
    getUniqueCapabilitiesE cs = Except.ok (dedupeSpec [] cs) :=
  getUniqueCapabilitiesE_eval cs h

theorem C4_dedupe_first_occurrence_witness :
    getUniqueCapabilitiesE
      [{ xml := some "<Capability Name=\"microphone\" />" },
       { xml := some "<Capability Name=\"internetClient\" />" },
       { xml := some "<Capability Name=\"microphone\" />" }] =
      Except.ok (dedupeSpec []
        [{ xml := some "<Capability Name=\"microphone\" />" },
         { xml := some "<Capability Name=\"internetClient\" />" },
         { xml := some "<Capability Name=\"microphone\" />" }]) :=
  C4_dedupe_first_occurrence _ (by decide)

/-- Claim C5: deduplication is idempotent on change lists whose xml each
yields a derived capability name. -/
theorem C5_dedupe_idempotent (cs : List Change)
    (h : ∀ c ∈ cs, (capName c).isSome = true) :
    (getUniqueCapabilitiesE cs).bind getUniqueCapabilitiesE =
      getUniqueCapabilitiesE cs := by
  rw [getUniqueCapabilitiesE_eval cs h]
  show getUniqueCapabilitiesE (dedupeSpec [] cs) =
    Except.ok (dedupeSpec [] cs)
  have hsub : ∀ c ∈ dedupeSpec [] cs, (capName c).isSome = true :=
    fun c hc => h c (mem_dedupeSpec cs [] hc)
  rw [getUniqueCapabilitiesE_eval _ hsub]
  rw [dedupeSpec_fixpoint _ [] (dedupeSpec_names cs []).2 (by simp)]

theorem C5_dedupe_idempotent_witness :
    (getUniqueCapabilitiesE
        [{ xml := some "<Capability Name=\"microphone\" />" },
         { xml := some "<Capability Name=\"microphone\" />" }]).bind
      getUniqueCapabilitiesE =
    getUniqueCapabilitiesE
      [{ xml := some "<Capability Name=\"microphone\" />" },
       { xml := some "<Capability Name=\"microphone\" />" }] :=
  C5_dedupe_idempotent _ (by decide)

/-- Claim C6: on a deduplicated change list (pairwise distinct derived
names, all extractable), the comparator sort is order independent — any
permutation of the input sorts to the same list. -/
theorem C6_sort_deterministic (cs p : List Change)
    (hperm : p.Perm cs)
    (hsome : ∀ c ∈ cs, (capName c).isSome = true)
    (hdist : List.Pairwise (fun a b => capName a ≠ capName b) cs) :
    sortCapabilitiesE p = sortCapabilitiesE cs := by
  rw [sortCapabilitiesE_eval p (fun c hc => hsome c (hperm.mem_iff.mp hc)),
    sortCapabilitiesE_eval cs hsome,
    sortCaps_deterministic cs p hperm hsome hdist]

theorem C6_sort_deterministic_witness :
    sortCapabilitiesE
      [{ xml := some "<Capability Name=\"microphone\" />" },
       { xml := some "<Capability Name=\"internetClient\" />" }] =
    sortCapabilitiesE
      [{ xml := some "<Capability Name=\"internetClient\" />" },
       { xml := some "<Capability Name=\"microphone\" />" }] :=
  C6_sort_deterministic
    [{ xml := some "<Capability Name=\"internetClient\" />" },
     { xml := some "<Capability Name=\"microphone\" />" }]
    [{ xml := some "<Capability Name=\"microphone\" />" },
     { xml := some "<Capability Name=\"internetClient\" />" }]
    (List.Perm.swap
      ({ xml := some "<Capability Name=\"internetClient\" />" } : Change)
      ({ xml := some "<Capability Name=\"microphone\" />" } : Change)
      ([] : List Change))
    (by decide) (by decide)

/-- Claim C7 counterexample: a Change with unresolvable deviceTarget
"bogus" does NOT produce exactly the same output Changes as the identical
Change with deviceTarget "all" — the emitted replacements keep the original
deviceTarget value. -/
theorem C7_bogus_differs_cex :
    demuxChange semverSatisfies
      { target := some "package.appxmanifest",
        deviceTarget := some "bogus" } ≠
    demuxChange semverSatisfies
      { target := some "package.appxmanifest",
        deviceTarget := some "all" } := by
  decide

/-- Claim C7 (amended): an unresolvable deviceTarget is silently treated as
"all" for manifest resolution, never rejected: the output is the output of
the same Change with deviceTarget "all", except that each emitted Change
carries the original (unresolvable) deviceTarget value. -/
theorem C7_bogus_like_all (s : String → String → Bool) (c : Change)
    (d : String) (hd : c.deviceTarget = some d)
    (hcontains : (["windows", "phone", "all"].contains d) = false) :
    demuxChange s c =
      (demuxChange s { c with deviceTarget := some "all" }).map
        (fun r => { r with deviceTarget := some d }) :=
  demuxChange_unresolvable s c d hd hcontains

theorem C7_bogus_like_all_witness :
    demuxChange semverSatisfies
      { target := some "package.appxmanifest",
        deviceTarget := some "bogus" } =
      (demuxChange semverSatisfies
        { target := some "package.appxmanifest",
          deviceTarget := some "all" }).map
        (fun r => { r with deviceTarget := some "bogus" }) :=
  C7_bogus_like_all semverSatisfies
    { target := some "package.appxmanifest", deviceTarget := some "bogus" }
    "bogus" rfl (by decide)

/-- Claim C8: Variant B's generateUapCapabilities keeps exactly the input's
selector keys (a selector with no capability changes maps to an empty list,
never disappears), and every retained change is the uap: prefixed rewrite
of a capability-element change of the corresponding input selector,
unconditionally (no membership filter). -/
theorem C8_munge_structure (m m' : Munge)
    (h : generateUapCapabilitiesB m = Except.ok m') :
    m'.parents.map Prod.fst = m.parents.map Prod.fst ∧
    List.Forall₂ (fun ip op => ∀ c' ∈ op.2, ∃ c ∈ ip.2,
        hasCapabilityChange c = true ∧ ∃ x, c.xml = some x ∧
          c'.xml = some (replaceFirstStr "Capability" "uap:Capability" x))
      m.parents m'.parents := by
  have hfa := genB_forall₂ h
  exact ⟨forall₂_keys hfa, hfa.imp (fun _ _ hR => (uapEntryB_ok hR).2)⟩

theorem C8_munge_structure_witness :
    ({ parents :=
        [("/Package/Capabilities",
          [{ xml := some "<uap:Capability Name=\"documentsLibrary\" />" }]),
         ("/Package/Extensions", ([] : List Change))] } : Munge).parents.map
        Prod.fst =
      ({ parents :=
          [("/Package/Capabilities",
            [{ xml := some "<Capability Name=\"documentsLibrary\" />" }]),
           ("/Package/Extensions",
            [{ xml := some "<Extension />" }])] } : Munge).parents.map
        Prod.fst ∧
    List.Forall₂ (fun ip op => ∀ c' ∈ op.2, ∃ c ∈ ip.2,
        hasCapabilityChange c = true ∧ ∃ x, c.xml = some x ∧
          c'.xml = some (replaceFirstStr "Capability" "uap:Capability" x))
      ({ parents :=
          [("/Package/Capabilities",
            [{ xml := some "<Capability Name=\"documentsLibrary\" />" }]),
           ("/Package/Extensions",
            [{ xml := some "<Extension />" }])] } : Munge).parents
      ({ parents :=
          [("/Package/Capabilities",
            [{ xml := some "<uap:Capability Name=\"documentsLibrary\" />" }]),
           ("/Package/Extensions", ([] : List Change))] } : Munge).parents :=
  C8_munge_structure
    { parents :=
        [("/Package/Capabilities",
          [{ xml := some "<Capability Name=\"documentsLibrary\" />" }]),
         ("/Package/Extensions", [{ xml := some "<Extension />" }])] }
    { parents :=
        [("/Package/Capabilities",
          [{ xml := some "<uap:Capability Name=\"documentsLibrary\" />" }]),
         ("/Package/Extensions", ([] : List Change))] }
    rfl

/-- Claim C9 counterexample: the claim says dedupe raises for every Change
lacking a Name attribute, but dedupe on a singleton list never invokes the
name derivation and succeeds. -/
theorem C9_dedupe_singleton_ok_cex :
    capName { xml := some "<Capability />" } = none ∧
    getUniqueCapabilitiesE [{ xml := some "<Capability />" }] =
      Except.ok [{ xml := some "<Capability />" }] :=
  ⟨by decide, rfl⟩

/-- Claim C9 (amended): the name derivation succeeds (returning a Name
attribute value occurring in the xml) exactly when the xml contains a
Name="word" attribute, and the error of a failing derivation propagates
uncaught through dedupe whenever dedupe actually invokes it (any list where
the malformed change is compared against an earlier one); dedupe on a
singleton does not invoke it. -/
theorem C9_name_extraction :
    (∀ (c : Change) (x : String), c.xml = some x →
      ((∃ n, getCapabilityNameE c = Except.ok n ∧ isNameOcc x.data n.data) ↔
        ∃ w, isNameOcc x.data w)) ∧
    (∀ (a b : Change) (rest : List Change),
      getCapabilityNameE b = Except.error () →
      getUniqueCapabilitiesE (a :: b :: rest) = Except.error ()) := by
  constructor
  · intro c x hx
    have hcap : capName c = matchName x := by
      rw [capName, hx]
      rfl
    constructor
    · rintro ⟨n, _, hocc⟩
      exact ⟨n.data, hocc⟩
    · intro hex
      obtain ⟨n, hmn, hocc⟩ := (matchName_iff_isNameOcc x).mpr hex
      refine ⟨n, ?_, hocc⟩
      rw [getCapabilityNameE, hcap]
      simp [hmn]
  · exact dedupe_error_prop

theorem C9_name_extraction_witness :
    (∃ n, getCapabilityNameE
        ({ xml := some "<Capability Name=\"internetClient\" />" } : Change) =
        Except.ok n ∧
      isNameOcc "<Capability Name=\"internetClient\" />".data n.data) ∧
    getUniqueCapabilitiesE
      [{ xml := some "<Capability Name=\"internetClient\" />" },
       { xml := some "<Capability />" }] = Except.error () := by
  constructor
  · refine (C9_name_extraction.1
      { xml := some "<Capability Name=\"internetClient\" />" }
      "<Capability Name=\"internetClient\" />" rfl).mpr ?_
    refine ⟨"internetClient".data,
      "<Capability ".data, "Name=\"".data, " />".data,
      by decide, by decide, by decide, by decide⟩
  · exact C9_name_extraction.2
      { xml := some "<Capability Name=\"internetClient\" />" }
      { xml := some "<Capability />" } [] rfl

/-- Claim C10 counterexample: with a non-empty edit_config_changes list and
no versions/deviceTarget anywhere, an edit-config change occurs twice
across the arguments handed to the base primitive — once inside the mutated
changes list and again in the separately-passed argument — not once. -/
theorem C10_edit_changes_duplicated_cex :
    ([({ target := some "config.xml" } : Change)] ++
      [({ target := some "package.appxmanifest",
          parent := some "p" } : Change)]).any qualifiesForDemux = false ∧
    countAcrossArgs
      { target := some "package.appxmanifest", parent := some "p" }
      (generatePluginConfigMungeArgs semverSatisfies
        [{ target := some "config.xml" }]
        (some [{ target := some "package.appxmanifest",
                 parent := some "p" }])) = 2 := by
  decide

/-- Claim C10 (amended): when no change in the combined list carries
versions or deviceTarget, the base primitive receives the mutated list
(raw changes plus edit-config changes) AND the edit_config_changes argument
again, so each change occurs changes.count + 2 * edit.count times across
the arguments — edit-config changes are passed twice, not once. -/
theorem C10_edit_changes_count (s : String → String → Bool)
    (changes edit : List Change) (e : Change)
    (hq : (changes ++ edit).any qualifiesForDemux = false) :
    countAcrossArgs e
      (generatePluginConfigMungeArgs s changes (some edit)) =
      changes.count e + 2 * edit.count e := by
  rw [generatePluginConfigMungeArgs]
  simp only [Option.getD_some]
  rw [if_neg (by simp [hq])]
  rw [countAcrossArgs]
  simp only [Option.getD_some, List.count_append]
  omega

theorem C10_edit_changes_count_witness :
    countAcrossArgs ({ target := some "bar" } : Change)
      (generatePluginConfigMungeArgs semverSatisfies
        [{ target := some "foo" }] (some [{ target := some "bar" }])) =
      [({ target := some "foo" } : Change)].count { target := some "bar" } +
        2 * [({ target := some "bar" } : Change)].count
          { target := some "bar" } :=
  C10_edit_changes_count semverSatisfies _ _ _ (by decide)
